import Mathlib

/-!
Shallow embedding of the `arnold` migration tool (src/arnold/__init__.py).

The program discovers migration files, sorts them by their numeric ordinal,
consults a database ledger table for the latest applied migration, computes
a window of migrations to run, and executes each one while keeping the
ledger in sync.  We model:

* the catalog (`_retreive_filenames`, lines 42-51) over an abstract listing
  of file names;
* the ledger as a list of applied migration names, with
  `_get_latest_migration` (lines 107-112, `SELECT * FROM migration ORDER BY
  migration DESC LIMIT 1`) modelled as sort-descending-then-head;
* the engine (`_perform_migrations`, lines 122-177, and
  `_perform_single_migration`, lines 53-96) as a pure state-passing
  function; the state records the ledger rows, the log of executed
  `(migration, direction)` operations, and the log of migrations the loop
  attempted (one entry per `_perform_single_migration` call);
* Python exceptions (`ValueError` from `list.index`,
  `DirectionNotFoundException`, `ValueError` from `int(...)`) as explicit
  outcome constructors; the state at the moment of the raise is retained,
  matching the database's partial-progress behaviour.
-/

namespace Arnold

/-- Migration direction, the `direction` argument of `_perform_migrations`. -/
inductive Direction where
  | up
  | down
deriving DecidableEq, Repr

/-- A migration module as the engine sees it: whether it exposes an `up`
attribute and whether it exposes a `down` attribute (`hasattr` checks at
line 87). -/
structure MUnit where
  hasUp : Bool
  hasDown : Bool
deriving DecidableEq, Repr

/-- Models `hasattr(migration_module, self.direction)` (line 87). -/
def hasDirection (u : MUnit) : Direction → Bool
  | .up => u.hasUp
  | .down => u.hasDown

/-- Observable state of one run: the ledger table (list of `migration`
column values, in insertion order), the log of unit operations actually
invoked (line 88), and the log of migrations handed to
`_perform_single_migration` by the loop at line 175. -/
structure EngineState where
  ledger : List String
  executed : List (String × Direction)
  attempted : List String
deriving DecidableEq, Repr

/-- Python exceptions the engine can raise. -/
inductive MigErr where
  /-- Python `DirectionNotFoundException` raised at line 91. -/
  | directionNotFound
  /-- Python `ValueError` raised by `filenames.index(...)` at line 139. -/
  | valueError
  /-- Python `ValueError` raised by `int(fname.split("_")[0])` at line 51. -/
  | invalidMigrationName
deriving DecidableEq, Repr

deriving instance DecidableEq for Except

/-- Result of `_perform_single_migration`: the boolean it returns, or the
exception it raises. -/
inductive StepResult where
  | ok (ret : Bool)
  | err (e : MigErr)
deriving DecidableEq, Repr

/-- Result of `_perform_migrations`: its boolean return value together with
whether the "Count ... greater than available migrations" notice (lines
165-173) was printed, or the exception that propagated out. -/
inductive RunOutcome where
  | finished (ret : Bool) (noticed : Bool)
  | raised (e : MigErr)
deriving DecidableEq, Repr

/-- Models `_update_migration_table` (lines 98-102): `up` inserts a row, `down`
deletes one row matching the name. -/
def updateMigrationTable (direction : Direction) (migration : String)
    (s : EngineState) : EngineState :=
  match direction with
  | .up => { s with ledger := s.ledger ++ [migration] }
  | .down => { s with ledger := s.ledger.erase migration }

/-- Models `_perform_single_migration` (lines 53-96).  The existence check at
lines 55-56 (`SELECT id ... LIMIT 1`, `len(rows) == 1`) is membership in
the ledger.  Skips return `False`; the fake branch (lines 73-77) mutates
the ledger without loading the unit; otherwise the unit is loaded and its
direction attribute is required (line 87), the operation runs (line 88) and
the ledger is updated (line 89). -/
def performSingle (units : String → MUnit) (direction : Direction)
    (fake : Bool) (migration : String) (s0 : EngineState) :
    EngineState × StepResult :=
  let s := { s0 with attempted := s0.attempted ++ [migration] }
  let migrationExists := s.ledger.contains migration
  if migrationExists = true ∧ direction = .up then
    (s, .ok false)
  else if migrationExists = false ∧ direction = .down then
    (s, .ok false)
  else if fake then
    (updateMigrationTable direction migration s, .ok true)
  else if hasDirection (units migration) direction then
    (updateMigrationTable direction migration
      { s with executed := s.executed ++ [(migration, direction)] }, .ok true)
  else
    (s, .err .directionNotFound)

/-- The loop at lines 175-176: run each migration in order; an exception
aborts the remaining iterations, keeping the state reached so far. -/
def runAll (units : String → MUnit) (direction : Direction) (fake : Bool) :
    List String → EngineState → EngineState × Option MigErr
  | [], s => (s, none)
  | m :: ms, s =>
    match performSingle units direction fake m s with
    | (s', .err e) => (s', some e)
    | (s', .ok _) => runAll units direction fake ms s'

/-- Lexicographic comparison of character lists by code point — the
ordering Python applies to `str` and the database applies to the
`migration` column. -/
def charsLt : List Char → List Char → Bool
  | [], [] => false
  | [], _ :: _ => true
  | _ :: _, [] => false
  | a :: as, b :: bs =>
    if a.toNat < b.toNat then true
    else if b.toNat < a.toNat then false
    else charsLt as bs

/-- Strict lexicographic order on names. -/
def strLt (a b : String) : Prop := charsLt a.toList b.toList = true

instance : DecidableRel strLt := fun a b =>
  inferInstanceAs (Decidable (charsLt a.toList b.toList = true))

/-- Name `a` is at most `b` in lexicographic order. -/
def strLe (a b : String) : Prop := charsLt b.toList a.toList = false

instance : DecidableRel strLe := fun a b =>
  inferInstanceAs (Decidable (charsLt b.toList a.toList = false))

/-- Insert into a descending-sorted list of names. -/
def insertDesc (x : String) : List String → List String
  | [] => [x]
  | y :: ys => if charsLt y.toList x.toList then x :: y :: ys
               else y :: insertDesc x ys

/-- Sort names descending, modelling `ORDER BY migration DESC`. -/
def sortDesc : List String → List String
  | [] => []
  | x :: xs => insertDesc x (sortDesc xs)

/-- Models `_get_latest_migration` (lines 107-112): first row of
`SELECT * FROM migration ORDER BY migration DESC LIMIT 1`, or `None` when
the table has no rows. -/
def latestMigration (ledger : List String) : Option String :=
  (sortDesc ledger).head?

/-- Clamp a Python slice index to `[0, n]`: negative indices count from the
end. -/
def pyBound (n : Nat) (i : Int) : Nat :=
  if i < 0 then (i + n).toNat else min i.toNat n

/-- Python's `l[a:b]` for integer `a`, `b`. -/
def pythonSlice (l : List α) (a b : Int) : List α :=
  let lo := pyBound l.length a
  let hi := pyBound l.length b
  (l.drop lo).take (hi - lo)

/-- Lines 158-177 of `_perform_migrations`: compute `end`, slice the
window, decide the count notice, and run the loop. -/
def runWindow (units : String → MUnit) (direction : Direction) (fake : Bool)
    (count : Int) (filenames : List String) (start : Int) (s : EngineState) :
    EngineState × RunOutcome :=
  let endIdx : Int := if count = 0 then filenames.length else start + count
  let migrationsToComplete := pythonSlice filenames start endIdx
  let noticed := decide (count > migrationsToComplete.length)
  match runAll units direction fake migrationsToComplete s with
  | (s', none) => (s', .finished true noticed)
  | (s', some e) => (s', .raised e)

/-- Models `_perform_migrations` (lines 122-177), with the ordered sequence
`filenames0` passed in (the catalog model `retreiveFilenames` produces it).
`down` reverses the sequence (line 129); an empty sequence returns `True`
(line 132); a latest record is looked up by `filenames.index` (line 139,
`ValueError` when absent); the two "Nothing to go" boundaries return
`False` (lines 146, 156); otherwise the window is sliced and run. -/
def performMigrations (units : String → MUnit) (direction : Direction)
    (fake : Bool) (count : Int) (filenames0 : List String)
    (s : EngineState) : EngineState × RunOutcome :=
  let filenames := if direction = .down then filenames0.reverse else filenames0
  if filenames.length = 0 then
    (s, .finished true false)
  else
    match latestMigration s.ledger with
    | some latest =>
      match filenames.indexOf? latest with
      | none => (s, .raised .valueError)
      | some migrationIndex =>
        if migrationIndex = filenames.length - 1 ∧ direction = .up then
          (s, .finished false false)
        else
          let start : Int :=
            if direction = .up then migrationIndex + 1 else migrationIndex
          runWindow units direction fake count filenames start s
    | none =>
      if direction = .down then
        (s, .finished false false)
      else
        runWindow units direction fake count filenames 0 s

/-- Python's `f.rsplit(".", 1)` on a character list: `some (base, ext)`
splitting at the rightmost `'.'`, or `none` when no `'.'` occurs. -/
def rsplitLast : List Char → Option (List Char × List Char)
  | [] => none
  | c :: cs =>
    match rsplitLast cs with
    | some (b, e) => some (c :: b, e)
    | none => if c = '.' then some ([], cs) else none

/-- The filter of lines 45-50: a file contributes its base name exactly when
it splits on a final dot, the extension is `py`, and the base is not the
ignored `__init__`. -/
def candidateBase (f : String) : Option String :=
  match rsplitLast f.toList with
  | none => none
  | some (b, e) =>
    if e = "py".toList ∧ ¬b = "__init__".toList then some (String.mk b)
    else none

/-- The accepted base names, in listing order (the `filenames` list built by
the loop at lines 44-50). -/
def candidates (files : List String) : List String :=
  files.filterMap candidateBase

/-- Digit-string to number; `none` when empty or a non-digit occurs. -/
def digitsToNat : List Char → Option Nat
  | [] => none
  | cs => go cs 0
where
  go : List Char → Nat → Option Nat
    | [], acc => some acc
    | c :: cs, acc =>
      if c.isDigit then go cs (acc * 10 + (c.toNat - 48)) else none

/-- Python `int(...)` on the relevant inputs: an optional sign followed by
one or more digits; anything else raises. -/
def parsePyInt : List Char → Option Int
  | '-' :: rest => (digitsToNat rest).map (fun n => -(n : Int))
  | '+' :: rest => (digitsToNat rest).map (fun n => (n : Int))
  | cs => (digitsToNat cs).map (fun n => (n : Int))

/-- Models `int(fname.split("_")[0])` (line 51): parse the segment before the
first underscore (the whole name when it has none). -/
def ordinalKey (name : String) : Option Int :=
  parsePyInt (name.toList.takeWhile (· ≠ '_'))

/-- Pair every name with its ordinal key, failing on the first name whose
key does not parse — Python computes `key(...)` for each element before
sorting, raising `ValueError` on a bad one. -/
def computeKeys : List String → Option (List (String × Int))
  | [] => some []
  | n :: ns =>
    match ordinalKey n, computeKeys ns with
    | some k, some rest => some ((n, k) :: rest)
    | _, _ => none

/-- Comparison used by `sorted(..., key=lambda fname: int(...))`: by the
integer key only. -/
def keyLE (a b : String × Int) : Prop := a.2 ≤ b.2

instance : DecidableRel keyLE := fun a b => inferInstanceAs (Decidable (a.2 ≤ b.2))

instance : IsTotal (String × Int) keyLE := ⟨fun a b => Int.le_total a.2 b.2⟩

instance : IsTrans (String × Int) keyLE := ⟨fun _ _ _ => Int.le_trans⟩

/-- Models `_retreive_filenames` (lines 42-51): filter the listing, then sort the
base names by parsed ordinal with a stable sort (Python's `sorted`),
raising when a key fails to parse. -/
def retreiveFilenames (files : List String) : Except MigErr (List String) :=
  match computeKeys (candidates files) with
  | none => .error .invalidMigrationName
  | some keyed => .ok ((keyed.insertionSort keyLE).map Prod.fst)

/-- One whole invocation: list the catalog, then run the engine
(`_retreive_filenames` is called at line 126, before anything runs). -/
def migrationRun (units : String → MUnit) (direction : Direction)
    (fake : Bool) (count : Int) (files : List String) (s : EngineState) :
    EngineState × RunOutcome :=
  match retreiveFilenames files with
  | .error e => (s, .raised e)
  | .ok filenames => performMigrations units direction fake count filenames s

/-- The claim's window start, following the spec's words: `0` with no
latest record, `index_of(latest) + 1` for `up`, `index_of(latest)` for
`down`, over the (already direction-adjusted) sequence. -/
def claimStart (seqAdj : List String) (direction : Direction)
    (latest : Option String) : Int :=
  match latest with
  | none => 0
  | some m =>
    if direction = .up then (seqAdj.indexOf m : Int) + 1
    else (seqAdj.indexOf m : Int)

/-- The claim's window, following the spec's words: reverse the sequence
for `down`, take `start` as in `claimStart`, `end = len(sequence)` when
`count == 0` and `start + count` otherwise, and slice. -/
def claimWindow (sequence : List String) (direction : Direction)
    (count : Int) (latest : Option String) : List String :=
  let seqAdj := if direction = .down then sequence.reverse else sequence
  let start := claimStart seqAdj direction latest
  let endIdx : Int := if count = 0 then (seqAdj.length : Int) else start + count
  pythonSlice seqAdj start endIdx

/-! ### Basic lemmas about single-step behaviour -/

theorem contains_eq_true_iff {l : List String} {m : String} :
    l.contains m = true ↔ m ∈ l := by
  simp

theorem performSingle_skip_up {units : String → MUnit} {fake : Bool}
    {m : String} {s : EngineState} (h : m ∈ s.ledger) :
    performSingle units .up fake m s =
      ({ s with attempted := s.attempted ++ [m] }, .ok false) := by
  simp [performSingle, h]

theorem performSingle_skip_down {units : String → MUnit} {fake : Bool}
    {m : String} {s : EngineState} (h : m ∉ s.ledger) :
    performSingle units .down fake m s =
      ({ s with attempted := s.attempted ++ [m] }, .ok false) := by
  simp [performSingle, h]

theorem performSingle_up_new_fake {units : String → MUnit}
    {m : String} {s : EngineState} (h : m ∉ s.ledger) :
    performSingle units .up true m s =
      ({ s with ledger := s.ledger ++ [m],
                attempted := s.attempted ++ [m] }, .ok true) := by
  simp [performSingle, h, updateMigrationTable]

theorem performSingle_up_new_exec {units : String → MUnit}
    {m : String} {s : EngineState} (h : m ∉ s.ledger)
    (hd : (units m).hasUp = true) :
    performSingle units .up false m s =
      ({ s with ledger := s.ledger ++ [m],
                executed := s.executed ++ [(m, .up)],
                attempted := s.attempted ++ [m] }, .ok true) := by
  simp [performSingle, h, updateMigrationTable, hasDirection, hd]

theorem performSingle_noDir {units : String → MUnit} {direction : Direction}
    {m : String} {s : EngineState}
    (hskip : if direction = .up then m ∉ s.ledger else m ∈ s.ledger)
    (hd : hasDirection (units m) direction = false) :
    performSingle units direction false m s =
      ({ s with attempted := s.attempted ++ [m] }, .err .directionNotFound) := by
  cases direction <;> simp at hskip <;> simp [performSingle, hskip, hd]

/-- Every branch of `_perform_single_migration` logs the attempted
migration and nothing else in the attempt log. -/
theorem performSingle_attempted (units : String → MUnit)
    (direction : Direction) (fake : Bool) (m : String) (s : EngineState) :
    (performSingle units direction fake m s).1.attempted =
      s.attempted ++ [m] := by
  cases direction <;>
    simp only [performSingle, updateMigrationTable] <;>
    split_ifs <;> rfl

/-! ### Lemmas about the execution loop -/

theorem runAll_append (units : String → MUnit) (direction : Direction)
    (fake : Bool) (as bs : List String) (s : EngineState) :
    runAll units direction fake (as ++ bs) s =
      match runAll units direction fake as s with
      | (s', none) => runAll units direction fake bs s'
      | (s', some e) => (s', some e) := by
  induction as generalizing s with
  | nil => simp [runAll]
  | cons a as ih =>
    simp only [List.cons_append, runAll]
    rcases h : performSingle units direction fake a s with ⟨s', r⟩
    cases r with
    | ok b => simp [ih]
    | err e => simp

/-- The loop attempts exactly the migrations handed to it, in order, when no
exception occurs. -/
theorem runAll_attempted {units : String → MUnit} {direction : Direction}
    {fake : Bool} : ∀ {ms : List String} {s s' : EngineState},
    runAll units direction fake ms s = (s', none) →
    s'.attempted = s.attempted ++ ms
  | [], s, s', h => by
    simp only [runAll] at h
    cases h
    simp
  | m :: ms, s, s', h => by
    simp only [runAll] at h
    rcases hp : performSingle units direction fake m s with ⟨s1, r⟩
    rw [hp] at h
    cases r with
    | err e => simp at h
    | ok b =>
      simp only at h
      have hs1 := performSingle_attempted units direction fake m s
      rw [hp] at hs1
      have := runAll_attempted h
      rw [this, hs1, List.append_assoc]
      rfl

/-- In an `up` step that returns normally, the ledger keeps its rows and
ends up containing the processed migration. -/
theorem performSingle_up_ok_ledger {units : String → MUnit} {fake : Bool}
    {m : String} {s s1 : EngineState} {b : Bool}
    (hp : performSingle units .up fake m s = (s1, .ok b)) :
    s.ledger ⊆ s1.ledger ∧ m ∈ s1.ledger := by
  by_cases hm : m ∈ s.ledger
  · rw [performSingle_skip_up hm] at hp
    cases hp
    exact ⟨fun x hx => hx, hm⟩
  · simp only [performSingle, updateMigrationTable, hm] at hp
    simp only [contains_eq_true_iff, hm] at hp
    by_cases hf : fake
    · simp only [hf, if_true, if_false] at hp
      simp at hp
      refine ⟨?_, ?_⟩ <;> rw [← hp.1] <;> simp
    · simp only [hf] at hp
      by_cases hd : hasDirection (units m) .up
      · simp only [hd, if_true] at hp
        simp at hp
        refine ⟨?_, ?_⟩ <;> rw [← hp.1] <;> simp
      · simp [hd] at hp

/-- Any step only ever adds the processed migration to the ledger (`up`) or
removes rows; here for `up`: the resulting rows all come from the old
ledger or are the processed name. -/
theorem performSingle_up_ledger_sub {units : String → MUnit} {fake : Bool}
    {m : String} {s s1 : EngineState} {r : StepResult}
    (hp : performSingle units .up fake m s = (s1, r)) :
    ∀ x ∈ s1.ledger, x ∈ s.ledger ∨ x = m := by
  simp only [performSingle, updateMigrationTable] at hp
  split_ifs at hp <;> cases hp <;> intro x hx <;> simp_all

/-- Loop invariant for `up`: a completed loop's ledger contains every old
row and every migration of the window. -/
theorem runAll_up_ledger_grow {units : String → MUnit} {fake : Bool} :
    ∀ {ms : List String} {s s' : EngineState},
    runAll units .up fake ms s = (s', none) →
    ∀ x, x ∈ s.ledger ∨ x ∈ ms → x ∈ s'.ledger
  | [], s, s', h => by
    simp only [runAll] at h
    cases h
    intro x hx
    rcases hx with hx | hx
    · exact hx
    · simp at hx
  | m :: ms, s, s', h => by
    simp only [runAll] at h
    rcases hp : performSingle units .up fake m s with ⟨s1, r⟩
    rw [hp] at h
    cases r with
    | err e => simp at h
    | ok b =>
      simp only at h
      intro x hx
      have hstep := performSingle_up_ok_ledger hp
      refine runAll_up_ledger_grow h x ?_
      rcases hx with hx | hx
      · exact Or.inl (hstep.1 hx)
      · rcases List.mem_cons.mp hx with rfl | hx
        · exact Or.inl hstep.2
        · exact Or.inr hx

/-- Loop invariant for `up`: rows present after the loop were present
before or belong to the window (holds also when the loop raised). -/
theorem runAll_up_ledger_sub {units : String → MUnit} {fake : Bool} :
    ∀ {ms : List String} {s s' : EngineState} {e : Option MigErr},
    runAll units .up fake ms s = (s', e) →
    ∀ x ∈ s'.ledger, x ∈ s.ledger ∨ x ∈ ms
  | [], s, s', e, h => by
    simp only [runAll] at h
    cases h
    exact fun x hx => Or.inl hx
  | m :: ms, s, s', e, h => by
    simp only [runAll] at h
    rcases hp : performSingle units .up fake m s with ⟨s1, r⟩
    rw [hp] at h
    cases r with
    | err e' =>
      simp only at h
      cases h
      intro x hx
      rcases performSingle_up_ledger_sub hp x hx with hx' | rfl
      · exact Or.inl hx'
      · exact Or.inr (List.mem_cons_self _ _)
    | ok b =>
      simp only at h
      intro x hx
      rcases runAll_up_ledger_sub h x hx with hx' | hx'
      · rcases performSingle_up_ledger_sub hp x hx' with hx'' | rfl
        · exact Or.inl hx''
        · exact Or.inr (List.mem_cons_self _ _)
      · exact Or.inr (List.mem_cons_of_mem _ hx')

/-- When every migration of the window is already in the ledger, an `up`
loop skips them all: no execution, no ledger change. -/
theorem runAll_up_all_skip {units : String → MUnit} {fake : Bool} :
    ∀ {ms : List String} {s : EngineState}, (∀ m ∈ ms, m ∈ s.ledger) →
    runAll units .up fake ms s =
      ({ s with attempted := s.attempted ++ ms }, none)
  | [], s, _ => by simp [runAll]
  | m :: ms, s, h => by
    have hm : m ∈ s.ledger := h m (List.mem_cons_self _ _)
    simp only [runAll, performSingle_skip_up hm]
    have ih := @runAll_up_all_skip units fake ms
      { s with attempted := s.attempted ++ [m] }
      (fun x hx => h x (List.mem_cons_of_mem _ hx))
    rw [ih]
    simp

/-- A fake `up` loop never raises and never executes unit code. -/
theorem runAll_up_fake_pure {units : String → MUnit} :
    ∀ {ms : List String} {s : EngineState},
    (runAll units .up true ms s).2 = none ∧
      (runAll units .up true ms s).1.executed = s.executed
  | [], s => by simp [runAll]
  | m :: ms, s => by
    by_cases hm : m ∈ s.ledger
    · simp only [runAll, performSingle_skip_up hm]
      exact runAll_up_fake_pure
    · simp only [runAll, performSingle_up_new_fake hm]
      exact runAll_up_fake_pure

/-- When nothing in the (duplicate-free) window is applied yet and every
unit exposes `up`, a real `up` loop executes every unit in order and
records each in the ledger. -/
theorem runAll_up_exec_all {units : String → MUnit} :
    ∀ {ms : List String} {s : EngineState}, ms.Nodup →
    (∀ m ∈ ms, m ∉ s.ledger) → (∀ m ∈ ms, (units m).hasUp = true) →
    runAll units .up false ms s =
      ({ s with ledger := s.ledger ++ ms,
                executed := s.executed ++ ms.map (fun m => (m, Direction.up)),
                attempted := s.attempted ++ ms }, none)
  | [], s, _, _, _ => by simp [runAll]
  | m :: ms, s, hnd, hnotin, hup => by
    have hm : m ∉ s.ledger := hnotin m (List.mem_cons_self _ _)
    simp only [runAll,
      performSingle_up_new_exec hm (hup m (List.mem_cons_self _ _))]
    rw [runAll_up_exec_all (List.nodup_cons.mp hnd).2 ?hnot
      (fun x hx => hup x (List.mem_cons_of_mem _ hx))]
    · simp
    case hnot =>
      intro x hx
      simp only [List.mem_append, List.mem_singleton]
      rintro (hx' | rfl)
      · exact hnotin x (List.mem_cons_of_mem _ hx) hx'
      · exact (List.nodup_cons.mp hnd).1 hx

/-! ### Order lemmas for the lexicographic comparison -/

theorem charsLt_irrefl : ∀ l : List Char, charsLt l l = false
  | [] => rfl
  | a :: as => by
    simp only [charsLt, lt_irrefl a.toNat, if_false, reduceIte]
    exact charsLt_irrefl as

theorem charsLt_trans : ∀ (a b c : List Char), charsLt a b = true →
    charsLt b c = true → charsLt a c = true
  | [], [], _, hab, _ => by simp [charsLt] at hab
  | [], _ :: _, [], _, hbc => by simp [charsLt] at hbc
  | [], _ :: _, _ :: _, _, _ => by simp [charsLt]
  | _ :: _, [], _, hab, _ => by simp [charsLt] at hab
  | _ :: _, _ :: _, [], _, hbc => by simp [charsLt] at hbc
  | a :: as, b :: bs, c :: cs, hab, hbc => by
    simp only [charsLt] at hab hbc ⊢
    split_ifs at hab hbc ⊢ <;>
      first
      | rfl
      | omega
      | exact charsLt_trans as bs cs hab hbc
      | simp_all

theorem charsLt_conn : ∀ (a b : List Char), charsLt a b = false →
    charsLt b a = false → a = b
  | [], [], _, _ => rfl
  | [], _ :: _, hab, _ => by simp [charsLt] at hab
  | _ :: _, [], _, hba => by simp [charsLt] at hba
  | a :: as, b :: bs, hab, hba => by
    simp only [charsLt] at hab hba
    rcases Nat.lt_trichotomy a.toNat b.toNat with h1 | h1 | h1
    · rw [if_pos h1] at hab
      exact absurd hab (by simp)
    · have hh : ¬a.toNat < b.toNat := by omega
      have hh' : ¬b.toNat < a.toNat := by omega
      rw [if_neg hh, if_neg hh'] at hab
      rw [if_neg hh', if_neg hh] at hba
      have hhead : a = b := Char.ext (UInt32.ext h1)
      rw [hhead, charsLt_conn as bs hab hba]
    · rw [if_pos h1] at hba
      exact absurd hba (by simp)

theorem charsLt_asymm {a b : List Char} (h : charsLt a b = true) :
    charsLt b a = false := by
  rcases hba : charsLt b a with _ | _
  · rfl
  · have := charsLt_trans a b a h hba
    rw [charsLt_irrefl] at this
    exact absurd this (by simp)

theorem strLe_refl (a : String) : strLe a a := charsLt_irrefl _

theorem strLe_of_strLt {a b : String} (h : strLt a b) : strLe a b :=
  charsLt_asymm h

theorem strLe_trans {a b c : String} (hab : strLe a b) (hbc : strLe b c) :
    strLe a c := by
  unfold strLe at hab hbc ⊢
  rcases hca : charsLt c.toList a.toList with _ | _
  · rfl
  · exfalso
    rcases hbc' : charsLt b.toList c.toList with _ | _
    · have heq := charsLt_conn _ _ hbc' hbc
      rw [heq, hca] at hab
      simp at hab
    · have := charsLt_trans _ _ _ hbc' hca
      rw [this] at hab
      simp at hab

theorem strLe_antisymm {a b : String} (hab : strLe a b) (hba : strLe b a) :
    a = b := by
  have h := charsLt_conn _ _ hba hab
  rcases a with ⟨da⟩
  rcases b with ⟨db⟩
  simpa [String.toList] using congrArg String.mk h

/-! ### Lemmas about the latest-migration lookup -/

theorem insertDesc_ne_nil (x : String) (l : List String) :
    insertDesc x l ≠ [] := by
  cases l with
  | nil => simp [insertDesc]
  | cons y ys =>
    simp only [insertDesc]
    split_ifs <;> simp

theorem mem_insertDesc {a x : String} {l : List String} :
    a ∈ insertDesc x l ↔ a = x ∨ a ∈ l := by
  induction l with
  | nil => simp [insertDesc]
  | cons y ys ih =>
    simp only [insertDesc]
    split_ifs <;> simp [ih] <;> tauto

theorem mem_sortDesc {a : String} {l : List String} :
    a ∈ sortDesc l ↔ a ∈ l := by
  induction l with
  | nil => simp [sortDesc]
  | cons x xs ih => simp [sortDesc, mem_insertDesc, ih]

theorem sortDesc_eq_nil_iff {l : List String} : sortDesc l = [] ↔ l = [] := by
  cases l with
  | nil => simp [sortDesc]
  | cons x xs => simp [sortDesc, insertDesc_ne_nil]

theorem head?_insertDesc (x : String) (l : List String) :
    (insertDesc x l).head? =
      some (match l.head? with
            | none => x
            | some y => if charsLt y.toList x.toList then x else y) := by
  cases l with
  | nil => rfl
  | cons y ys =>
    simp only [insertDesc, List.head?_cons]
    split_ifs <;> simp

/-- The ledger is empty exactly when `_get_latest_migration` returns
`None`. -/
theorem latestMigration_none_iff {l : List String} :
    latestMigration l = none ↔ l = [] := by
  rw [latestMigration, List.head?_eq_none_iff, sortDesc_eq_nil_iff]

theorem latestMigration_mem {l : List String} {m : String}
    (h : latestMigration l = some m) : m ∈ l := by
  rw [latestMigration] at h
  exact mem_sortDesc.mp (List.mem_of_mem_head? h)

/-- Lemma: `_get_latest_migration` returns a name no ledger row exceeds in string
order. -/
theorem latestMigration_max : ∀ {l : List String} {m : String},
    latestMigration l = some m → ∀ x ∈ l, strLe x m
  | [], m, h => by simp [latestMigration, sortDesc] at h
  | x :: xs, m, h => by
    intro a ha
    rw [latestMigration, sortDesc, head?_insertDesc] at h
    rcases hxs : (sortDesc xs).head? with _ | y
    · have hnil : xs = [] := by
        rcases hs : sortDesc xs with _ | ⟨z, zs⟩
        · exact sortDesc_eq_nil_iff.mp hs
        · rw [hs] at hxs; simp at hxs
      rw [hxs] at h
      simp only [Option.some.injEq] at h
      subst hnil
      rcases List.mem_singleton.mp ha with rfl
      rw [← h]
      exact strLe_refl a
    · rw [hxs] at h
      simp only [Option.some.injEq] at h
      have hy : latestMigration xs = some y := by rw [latestMigration, hxs]
      have hym : strLe y m := by
        by_cases hlt : charsLt y.toList x.toList = true
        · rw [if_pos hlt] at h; rw [← h]; exact charsLt_asymm hlt
        · rw [if_neg hlt] at h; rw [← h]; exact strLe_refl y
      rcases List.mem_cons.mp ha with rfl | ha'
      · by_cases hlt : charsLt y.toList a.toList = true
        · rw [if_pos hlt] at h; rw [← h]; exact strLe_refl a
        · rw [if_neg hlt] at h; rw [← h]
          simpa [strLe] using hlt
      · exact strLe_trans (latestMigration_max hy a ha') hym

/-! ### Lemmas about `List.indexOf?` (Python's `list.index`) -/

theorem indexOf?_cons_eq {x m : String} {xs : List String} :
    (x :: xs).indexOf? m =
      if x = m then some 0 else (xs.indexOf? m).map (· + 1) := by
  rw [List.indexOf?_cons]
  by_cases h : x = m
  · simp [h]
  · have : (x == m) = false := by simp [h]
    simp [this, h, Nat.succ_eq_add_one]

theorem indexOf?_isSome_of_mem {l : List String} {m : String} (h : m ∈ l) :
    ∃ i, l.indexOf? m = some i := by
  rcases hi : l.indexOf? m with _ | i
  · rw [List.indexOf?_eq_none_iff] at hi
    exact absurd (by simp : (m == m) = true) (by simpa using hi m h)
  · exact ⟨i, rfl⟩

theorem indexOf?_eq_none_of_not_mem {l : List String} {m : String}
    (h : m ∉ l) : l.indexOf? m = none := by
  rw [List.indexOf?_eq_none_iff]
  intro x hx
  simp only [beq_iff_eq]
  rintro rfl
  exact h hx

theorem indexOf?_lt_length : ∀ {l : List String} {m : String} {i : Nat},
    l.indexOf? m = some i → i < l.length
  | [], m, i, h => by simp at h
  | x :: xs, m, i, h => by
    rw [indexOf?_cons_eq] at h
    split_ifs at h with hx
    · cases h; simp
    · rcases hj : xs.indexOf? m with _ | j
      · rw [hj] at h; simp at h
      · rw [hj] at h
        simp only [Option.map_some', Option.some.injEq] at h
        subst h
        simpa using indexOf?_lt_length hj

/-- In a duplicate-free list, a member of `l.drop k` has index at least
`k`. -/
theorem le_indexOf?_of_mem_drop : ∀ {l : List String} {k i : Nat}
    {m : String}, l.Nodup → m ∈ l.drop k → l.indexOf? m = some i → k ≤ i
  | _, 0, _, _, _, _, _ => Nat.zero_le _
  | [], k + 1, i, m, _, hmem, _ => by simp at hmem
  | x :: xs, k + 1, i, m, hnd, hmem, hidx => by
    simp only [List.drop_succ_cons] at hmem
    rw [indexOf?_cons_eq] at hidx
    split_ifs at hidx with hx
    · subst hx
      exact absurd (List.drop_subset _ _ hmem) (List.nodup_cons.mp hnd).1
    · rcases hj : xs.indexOf? m with _ | j
      · rw [hj] at hidx; simp at hidx
      · rw [hj] at hidx
        simp only [Option.map_some', Option.some.injEq] at hidx
        subst hidx
        exact Nat.succ_le_succ
          (le_indexOf?_of_mem_drop (List.nodup_cons.mp hnd).2 hmem hj)

/-! ### Lemmas about Python slicing -/

theorem pyBound_natCast (n k : Nat) : pyBound n (k : Int) = min k n := by
  simp [pyBound]

theorem pythonSlice_natCast (l : List α) (k : Nat) :
    pythonSlice l (k : Int) (l.length : Int) = l.drop k := by
  simp only [pythonSlice, pyBound_natCast, Nat.min_self]
  by_cases hk : k ≤ l.length
  · rw [Nat.min_eq_left hk]
    exact List.take_of_length_le (by simp)
  · rw [Nat.min_eq_right (le_of_not_le hk)]
    simp only [Nat.sub_self, List.take_zero]
    rw [List.drop_eq_nil_iff.mpr (le_of_not_le hk)]

theorem pythonSlice_zero_neg_one (l : List α) :
    pythonSlice l 0 (-1) = l.dropLast := by
  have h0 : pyBound l.length 0 = 0 := by simp [pyBound]
  have h1 : pyBound l.length (-1) = l.length - 1 := by
    simp only [pyBound, if_pos (by norm_num : (-1 : Int) < 0)]
    omega
  simp only [pythonSlice, h0, h1, List.drop_zero, Nat.sub_zero]
  exact (List.dropLast_eq_take l).symm

/-! ### Claim C5 -/

/-- C5: for every ledger state, `_get_latest_migration` returns `None`
exactly when the ledger holds no rows, and otherwise returns a ledger
record — a member of the ledger — whose migration name string is
lexicographically greatest. -/
theorem latest_applied_correct (l : List String) :
    (latestMigration l = none ↔ l = []) ∧
    (∀ m, latestMigration l = some m → m ∈ l ∧ ∀ x ∈ l, strLe x m) :=
  ⟨latestMigration_none_iff,
   fun _ h => ⟨latestMigration_mem h, latestMigration_max h⟩⟩

/-- Witness for C5 on a concrete ledger; note `"9_z"` beats `"10_b"` in
string order. -/
theorem latest_applied_correct_witness :
    latestMigration ["1_a", "9_z", "10_b"] = some "9_z" ∧
    "9_z" ∈ ["1_a", "9_z", "10_b"] ∧
    ∀ x ∈ ["1_a", "9_z", "10_b"], strLe x "9_z" :=
  ⟨by decide,
   (latest_applied_correct ["1_a", "9_z", "10_b"]).2 "9_z" (by decide)⟩

/-! ### Claim C4 -/

/-- C4 (amended): with a **non-empty** discovered sequence, the two
boundary conditions are non-error no-ops returning `False` with zero
mutations and zero executions: `down` with an empty ledger, and `up` when
the latest-applied record sits at the last index of the sequence.  (With
an empty sequence the code instead returns `True` at line 132 before
reaching these checks — see the counterexample.) -/
theorem boundary_noop (units : String → MUnit) (fake : Bool) (count : Int)
    (filenames : List String) (s : EngineState) (hne : filenames ≠ []) :
    (latestMigration s.ledger = none →
      performMigrations units .down fake count filenames s =
        (s, .finished false false)) ∧
    (∀ m, latestMigration s.ledger = some m →
      filenames.indexOf? m = some (filenames.length - 1) →
      performMigrations units .up fake count filenames s =
        (s, .finished false false)) := by
  have hlen : filenames.length ≠ 0 := by
    simpa using fun h => hne (List.length_eq_zero.mp h)
  constructor
  · intro hnone
    simp [performMigrations, hlen, hnone]
  · intro m hm hidx
    simp [performMigrations, hlen, hm, hidx]

/-- Witness for C4 at a one-element catalog: blocked `down` on an empty
ledger and blocked `up` with the latest at the last index. -/
theorem boundary_noop_witness :
    performMigrations (fun _ => ⟨true, true⟩) .down false 0 ["1_a"]
        { ledger := [], executed := [], attempted := [] } =
      ({ ledger := [], executed := [], attempted := [] },
        .finished false false) ∧
    performMigrations (fun _ => ⟨true, true⟩) .up false 0 ["1_a"]
        { ledger := ["1_a"], executed := [], attempted := [] } =
      ({ ledger := ["1_a"], executed := [], attempted := [] },
        .finished false false) :=
  ⟨(boundary_noop _ _ _ _ _ (by decide)).1 (by decide),
   (boundary_noop _ _ _ _ _ (by decide)).2 "1_a" (by decide) (by decide)⟩

/-- C4 counterexample: a `down` run with no ledger record but an empty
catalog returns `True` at line 132 — it does not report "nothing to go
down" and does not return the `False` no-op result the claim requires
for every such run. -/
theorem boundary_noop_counterexample :
    performMigrations (fun _ => ⟨true, true⟩) .down false 0 []
        { ledger := [], executed := [], attempted := [] } =
      ({ ledger := [], executed := [], attempted := [] },
        .finished true false) ∧
    RunOutcome.finished true false ≠ RunOutcome.finished false false :=
  ⟨by decide, by decide⟩

/-! ### Claim C9 -/

/-- C9 (amended): when the latest-applied record names a migration absent
from the (direction-adjusted) discovered sequence **and the sequence is
non-empty**, `_perform_migrations` raises the `ValueError` from
`filenames.index` (line 139), leaving the state untouched. -/
theorem missing_latest_raises (units : String → MUnit)
    (direction : Direction) (fake : Bool) (count : Int)
    (filenames : List String) (s : EngineState) (m : String)
    (hne : filenames ≠ [])
    (hm : latestMigration s.ledger = some m)
    (hnot : m ∉ (if direction = .down then filenames.reverse else filenames)) :
    performMigrations units direction fake count filenames s =
      (s, .raised .valueError) := by
  have hlen : filenames.length ≠ 0 := by
    simpa using fun h => hne (List.length_eq_zero.mp h)
  cases direction with
  | up =>
    simp only [reduceCtorEq, if_false] at hnot
    simp [performMigrations, hlen, hm, indexOf?_eq_none_of_not_mem hnot]
  | down =>
    simp only [reduceIte] at hnot
    simp [performMigrations, hlen, hm, indexOf?_eq_none_of_not_mem hnot]

/-- Witness for C9: ledger knows `"2_b"` but only `"1_a"` is on disk. -/
theorem missing_latest_raises_witness :
    performMigrations (fun _ => ⟨true, true⟩) .up false 0 ["1_a"]
        { ledger := ["2_b"], executed := [], attempted := [] } =
      ({ ledger := ["2_b"], executed := [], attempted := [] },
        .raised .valueError) :=
  missing_latest_raises _ _ _ _ _ _ "2_b" (by decide) (by decide) (by decide)

/-- C9 counterexample to the unqualified claim: when every migration file
is gone (empty sequence) the code returns `True` at line 132 — a no-op
result, not a raise — even though the latest record names a migration not
present in the sequence. -/
theorem missing_latest_raises_counterexample :
    performMigrations (fun _ => ⟨true, true⟩) .up false 0 []
        { ledger := ["1_x"], executed := [], attempted := [] } =
      ({ ledger := ["1_x"], executed := [], attempted := [] },
        .finished true false) ∧
    RunOutcome.finished true false ≠ RunOutcome.raised .valueError :=
  ⟨by decide, by decide⟩

/-! ### Claim C10 -/

/-- C10: a negative count is neither rejected nor treated as zero: the
window end `start + count` reaches Python slicing where a negative index
counts from the sequence's end.  With `count = -1`, an empty ledger and a
non-empty duplicate-free sequence whose units all expose `up`, an `up` run
executes every migration except the last. -/
theorem negative_count_slices_from_end (units : String → MUnit)
    (filenames : List String) (s : EngineState)
    (hnd : filenames.Nodup) (hne : filenames ≠ []) (hled : s.ledger = [])
    (hup : ∀ m, (units m).hasUp = true) :
    performMigrations units .up false (-1) filenames s =
      ({ s with
          ledger := s.ledger ++ filenames.dropLast,
          executed :=
            s.executed ++ filenames.dropLast.map (fun m => (m, Direction.up)),
          attempted := s.attempted ++ filenames.dropLast },
        .finished true false) := by
  have hlen : filenames.length ≠ 0 := by
    simpa using fun h => hne (List.length_eq_zero.mp h)
  have hnone : latestMigration s.ledger = none := by
    rw [hled]; rfl
  have hrun := @runAll_up_exec_all units filenames.dropLast s
    (hnd.sublist (List.dropLast_sublist filenames))
    (fun m _ => by rw [hled]; exact List.not_mem_nil m)
    (fun m _ => hup m)
  have hwin : pythonSlice filenames 0
      (if (-1 : Int) = 0 then (filenames.length : Int) else 0 + (-1)) =
      filenames.dropLast := by
    rw [if_neg (by norm_num : ¬(-1 : Int) = 0)]
    norm_num [pythonSlice_zero_neg_one]
  have hnot : ¬((-1 : Int) > (filenames.dropLast.length : Int)) := by
    have : (0 : Int) ≤ (filenames.dropLast.length : Int) := Int.natCast_nonneg _
    omega
  simp only [performMigrations, reduceCtorEq, if_false]
  rw [if_neg hlen, hnone]
  simp only [runWindow, hwin, hrun, decide_eq_false hnot]

/-- Witness for C10: two migrations, `up` with count `-1` runs only the
first. -/
theorem negative_count_slices_from_end_witness :
    performMigrations (fun _ => ⟨true, true⟩) .up false (-1) ["1_a", "2_b"]
        { ledger := [], executed := [], attempted := [] } =
      ({ ledger := ["1_a"], executed := [("1_a", Direction.up)],
         attempted := ["1_a"] }, .finished true false) := by
  have h := negative_count_slices_from_end (fun _ => ⟨true, true⟩)
    ["1_a", "2_b"] { ledger := [], executed := [], attempted := [] }
    (by decide) (by decide) (by decide) (fun _ => rfl)
  simpa using h

/-! ### Claim C7 -/

theorem computeKeys_eq_none_of_bad : ∀ {l : List String} {b : String},
    b ∈ l → ordinalKey b = none → computeKeys l = none
  | n :: ns, b, hmem, hbad => by
    rcases List.mem_cons.mp hmem with rfl | hmem'
    · simp [computeKeys, hbad]
    · simp only [computeKeys, computeKeys_eq_none_of_bad hmem' hbad]
      rcases ordinalKey n with _ | k <;> rfl

/-- C7: a candidate artifact whose base name's leading segment (before the
first `_`) does not parse as an integer makes `_retreive_filenames` raise
the `ValueError` from `int(...)` at line 51 — the name is not silently
skipped — and the whole invocation aborts before any unit is attempted,
executed or recorded (the state is returned untouched). -/
theorem malformed_name_fatal (files : List String) (units : String → MUnit)
    (direction : Direction) (fake : Bool) (count : Int) (s : EngineState)
    (f base : String) (hf : f ∈ files) (hc : candidateBase f = some base)
    (hbad : ordinalKey base = none) :
    retreiveFilenames files = .error .invalidMigrationName ∧
    migrationRun units direction fake count files s =
      (s, .raised .invalidMigrationName) := by
  have hmem : base ∈ candidates files :=
    List.mem_filterMap.mpr ⟨f, hf, hc⟩
  have hkeys : computeKeys (candidates files) = none :=
    computeKeys_eq_none_of_bad hmem hbad
  constructor
  · simp [retreiveFilenames, hkeys]
  · simp [migrationRun, retreiveFilenames, hkeys]

/-- Witness for C7: `bad_name.py` is a candidate (`.py`, not ignored) whose
ordinal segment `bad` is not an integer. -/
theorem malformed_name_fatal_witness :
    retreiveFilenames ["1_ok.py", "bad_name.py"] =
      .error .invalidMigrationName ∧
    migrationRun (fun _ => ⟨true, true⟩) .up false 0
        ["1_ok.py", "bad_name.py"]
        { ledger := [], executed := [], attempted := [] } =
      ({ ledger := [], executed := [], attempted := [] },
        .raised .invalidMigrationName) :=
  malformed_name_fatal ["1_ok.py", "bad_name.py"] (fun _ => ⟨true, true⟩)
    .up false 0 { ledger := [], executed := [], attempted := [] }
    "bad_name.py" "bad_name" (by decide) (by decide) (by decide)

/-! ### Claim C8 -/

/-- C8: in a fake `up` run no unit operation is ever loaded or invoked
(the execution log is untouched and nothing can raise
`DirectionNotFoundException`), yet afterwards the ledger holds a row for
every migration of the window; and a subsequent real (non-fake) `up` step
on a migration whose row is in the ledger skips it — returning `False`
with no execution and no ledger change. -/
theorem fake_up_inserts_without_executing (units : String → MUnit)
    (ms : List String) (s : EngineState) :
    (runAll units .up true ms s).2 = none ∧
    (runAll units .up true ms s).1.executed = s.executed ∧
    (∀ m ∈ ms, m ∈ (runAll units .up true ms s).1.ledger) ∧
    (∀ (m : String) (t : EngineState), m ∈ t.ledger →
      performSingle units .up false m t =
        ({ t with attempted := t.attempted ++ [m] }, .ok false)) := by
  refine ⟨runAll_up_fake_pure.1, runAll_up_fake_pure.2, ?_, ?_⟩
  · intro m hm
    rcases h : runAll units .up true ms s with ⟨s', e⟩
    have he : e = none := by
      have := @runAll_up_fake_pure units ms s
      rw [h] at this
      exact this.1
    subst he
    exact runAll_up_ledger_grow h m (Or.inr hm)
  · intro m t hm
    exact performSingle_skip_up hm

/-- Witness for C8: fake-apply `1_a` on an empty ledger, then the real
step on the resulting state skips. -/
theorem fake_up_inserts_without_executing_witness :
    (runAll (fun _ => ⟨true, true⟩) .up true ["1_a"]
        { ledger := [], executed := [], attempted := [] }).2 = none ∧
    "1_a" ∈ (runAll (fun _ => ⟨true, true⟩) .up true ["1_a"]
        { ledger := [], executed := [], attempted := [] }).1.ledger ∧
    performSingle (fun _ => ⟨true, true⟩) .up false "1_a"
        { ledger := ["1_a"], executed := [], attempted := ["1_a"] } =
      ({ ledger := ["1_a"], executed := [], attempted := ["1_a", "1_a"] },
        .ok false) :=
  ⟨(fake_up_inserts_without_executing (fun _ => ⟨true, true⟩) ["1_a"]
      { ledger := [], executed := [], attempted := [] }).1,
   (fake_up_inserts_without_executing (fun _ => ⟨true, true⟩) ["1_a"]
      { ledger := [], executed := [], attempted := [] }).2.2.1 "1_a"
      (by decide),
   (fake_up_inserts_without_executing (fun _ => ⟨true, true⟩) ["1_a"]
      { ledger := [], executed := [], attempted := [] }).2.2.2 "1_a"
      { ledger := ["1_a"], executed := [], attempted := ["1_a"] }
      (by decide)⟩

/-! ### Claim C6 -/

/-- C6 (amended): when the execution loop reaches a unit that is actually
processed (not skipped by the existence check, run non-fake) and that unit
does not expose the requested direction, the run raises
`DirectionNotFoundException` at that unit: no later unit of the window is
attempted or executed, the failing unit's ledger entry is not mutated, and
the mutations of the units completed before it are kept (not rolled
back). -/
theorem missing_direction_aborts (units : String → MUnit)
    (direction : Direction) (pre post : List String) (bad : String)
    (s s1 : EngineState)
    (hpre : runAll units direction false pre s = (s1, none))
    (hskip : if direction = .up then bad ∉ s1.ledger else bad ∈ s1.ledger)
    (hd : hasDirection (units bad) direction = false) :
    runAll units direction false (pre ++ bad :: post) s =
      ({ s1 with attempted := s1.attempted ++ [bad] },
        some .directionNotFound) := by
  rw [runAll_append, hpre]
  simp only [runAll, performSingle_noDir hskip hd]

/-- Witness for C6: `1_a` applies, `2_b` lacks `up`, `3_c` is never
reached; the ledger keeps `1_a` only. -/
theorem missing_direction_aborts_witness :
    runAll (fun m => if m = "1_a" then ⟨true, true⟩ else ⟨false, false⟩)
        .up false (["1_a"] ++ "2_b" :: ["3_c"])
        { ledger := [], executed := [], attempted := [] } =
      ({ ledger := ["1_a"], executed := [("1_a", Direction.up)],
         attempted := ["1_a", "2_b"] }, some .directionNotFound) := by
  have h := missing_direction_aborts
    (fun m => if m = "1_a" then ⟨true, true⟩ else ⟨false, false⟩)
    .up ["1_a"] ["3_c"] "2_b"
    { ledger := [], executed := [], attempted := [] }
    { ledger := ["1_a"], executed := [("1_a", Direction.up)],
      attempted := ["1_a"] }
    (by decide) (by decide) (by decide)
  simpa using h

/-- C6 counterexample to the unqualified claim: with the fake flag set the
unit's code is never loaded, so a window containing a unit with no `up`
completes without raising — the run does not abort even though a unit in
the window lacks the requested direction. -/
theorem missing_direction_aborts_counterexample :
    performMigrations (fun _ => ⟨false, false⟩) .up true 0 ["1_a"]
        { ledger := [], executed := [], attempted := [] } =
      ({ ledger := ["1_a"], executed := [], attempted := ["1_a"] },
        .finished true false) ∧
    RunOutcome.finished true false ≠ RunOutcome.raised .directionNotFound :=
  ⟨by decide, by decide⟩

/-! ### Claim C3 -/

theorem computeKeys_map_fst : ∀ {ns : List String}
    {keyed : List (String × Int)}, computeKeys ns = some keyed →
    keyed.map Prod.fst = ns
  | [], keyed, h => by
    simp only [computeKeys, Option.some.injEq] at h
    rw [← h]
    rfl
  | n :: ns, keyed, h => by
    simp only [computeKeys] at h
    rcases hk : ordinalKey n with _ | k <;> rw [hk] at h
    · simp at h
    · rcases hr : computeKeys ns with _ | rest <;> rw [hr] at h
      · simp at h
      · simp only [Option.some.injEq] at h
        rw [← h]
        simp [computeKeys_map_fst hr]

theorem computeKeys_keys : ∀ {ns : List String}
    {keyed : List (String × Int)}, computeKeys ns = some keyed →
    ∀ p ∈ keyed, ordinalKey p.1 = some p.2
  | [], keyed, h => by
    simp only [computeKeys, Option.some.injEq] at h
    rw [← h]
    simp
  | n :: ns, keyed, h => by
    simp only [computeKeys] at h
    rcases hk : ordinalKey n with _ | k <;> rw [hk] at h
    · simp at h
    · rcases hr : computeKeys ns with _ | rest <;> rw [hr] at h
      · simp at h
      · simp only [Option.some.injEq] at h
        rw [← h]
        intro p hp
        rcases List.mem_cons.mp hp with rfl | hp'
        · exact hk
        · exact computeKeys_keys hr p hp'

/-- Inserting an element into any list leaves a key-class filter either
untouched (different key) or prefixed with the new element (same key):
the elements `orderedInsert` jumps over all have strictly smaller keys. -/
theorem orderedInsert_filter_key (a : String × Int)
    (l : List (String × Int)) (k : Int) :
    (l.orderedInsert keyLE a).filter (fun p => p.2 == k) =
      if a.2 == k then a :: l.filter (fun p => p.2 == k)
      else l.filter (fun p => p.2 == k) := by
  rw [List.orderedInsert_eq_take_drop]
  rw [List.filter_append, List.filter_cons]
  have htake : (l.takeWhile fun b => decide ¬keyLE a b).filter
      (fun p => p.2 == k) = [] ∨ ¬(a.2 == k) = true := by
    by_cases hk : (a.2 == k) = true
    · left
      rw [List.filter_eq_nil_iff]
      intro b hb
      have hcond := List.mem_takeWhile_imp hb
      simp only [decide_eq_true_eq, keyLE] at hcond
      have hlt : b.2 < a.2 := lt_of_not_le hcond
      have : a.2 = k := by simpa using hk
      simp only [beq_iff_eq]
      omega
    · right; exact hk
  by_cases hk : (a.2 == k) = true
  · rcases htake with htake | hcontra
    · rw [if_pos hk, htake, List.nil_append, if_pos hk]
      congr 1
      conv_rhs => rw [← List.takeWhile_append_dropWhile
        (p := fun b => decide ¬keyLE a b) (l := l)]
      rw [List.filter_append, htake, List.nil_append]
    · exact absurd hk hcontra
  · have hk' : (a.2 == k) = false := by
      rcases h : a.2 == k with _ | _
      · rfl
      · exact absurd h hk
    rw [if_neg hk, if_neg hk]
    conv_rhs => rw [← List.takeWhile_append_dropWhile
      (p := fun b => decide ¬keyLE a b) (l := l)]
    rw [List.filter_append]

/-- Python's `sorted` (modelled by `insertionSort keyLE`) is stable: every
equal-key class keeps its input order. -/
theorem insertionSort_filter_key (k : Int) : ∀ l : List (String × Int),
    ((l.insertionSort keyLE).filter (fun p => p.2 == k)) =
      l.filter (fun p => p.2 == k)
  | [] => rfl
  | a :: l => by
    rw [List.insertionSort, orderedInsert_filter_key,
      insertionSort_filter_key k l, List.filter_cons]

/-- C3 (amended): the catalog's ordered sequence is sorted ascending by
the parsed integer ordinal, but names with equal ordinals keep the
relative order in which the source listing produced them (Python's
`sorted` is stable and its key is the integer alone) — they are **not**
reordered by base-name string comparison. -/
theorem catalog_order (files : List String) (l : List String)
    (h : retreiveFilenames files = .ok l) :
    l.Pairwise (fun a b => ∃ ka kb, ordinalKey a = some ka ∧
      ordinalKey b = some kb ∧ ka ≤ kb) ∧
    ∀ k : Int, l.filter (fun n => ordinalKey n == some k) =
      (candidates files).filter (fun n => ordinalKey n == some k) := by
  simp only [retreiveFilenames] at h
  rcases hck : computeKeys (candidates files) with _ | keyed <;> rw [hck] at h
  · simp at h
  · simp only [Except.ok.injEq] at h
    have hkeys : ∀ p ∈ keyed.insertionSort keyLE, ordinalKey p.1 = some p.2 :=
      fun p hp => computeKeys_keys hck p ((List.mem_insertionSort keyLE).mp hp)
    constructor
    · rw [← h]
      apply List.Pairwise.map Prod.fst (fun p q hpq => hpq)
      have hsorted : (keyed.insertionSort keyLE).Pairwise keyLE :=
        List.sorted_insertionSort keyLE keyed
      exact List.Pairwise.imp_of_mem
        (fun {p q} hp hq hpq =>
          ⟨p.2, q.2, hkeys p hp, hkeys q hq, hpq⟩) hsorted
    · intro k
      rw [← h]
      rw [List.map_filter]
      have hc1 : (keyed.insertionSort keyLE).filter
          ((fun n => ordinalKey n == some k) ∘ Prod.fst) =
          (keyed.insertionSort keyLE).filter (fun p => p.2 == k) := by
        apply List.filter_congr
        intro p hp
        simp only [Function.comp_apply, hkeys p hp]
        rcases h2 : p.2 == k with _ | _
        · have : ¬p.2 = k := by simpa using h2
          simp [this]
        · have : p.2 = k := by simpa using h2
          simp [this]
      have hc2 : keyed.filter (fun p => p.2 == k) =
          keyed.filter ((fun n => ordinalKey n == some k) ∘ Prod.fst) := by
        apply List.filter_congr
        intro p hp
        simp only [Function.comp_apply, computeKeys_keys hck p hp]
        rcases h2 : p.2 == k with _ | _
        · have : ¬p.2 = k := by simpa using h2
          simp [this]
        · have : p.2 = k := by simpa using h2
          simp [this]
      rw [hc1, insertionSort_filter_key, hc2, ← List.map_filter,
        computeKeys_map_fst hck]

/-- Witness for C3 at a concrete listing with an ordinal tie: the output
keeps listing order for the tied pair. -/
theorem catalog_order_witness :
    retreiveFilenames ["2_b.py", "2_a.py", "1_c.py"] =
      .ok ["1_c", "2_b", "2_a"] ∧
    ["1_c", "2_b", "2_a"].filter (fun n => ordinalKey n == some 2) =
      (candidates ["2_b.py", "2_a.py", "1_c.py"]).filter
        (fun n => ordinalKey n == some 2) :=
  ⟨by decide,
   (catalog_order ["2_b.py", "2_a.py", "1_c.py"] ["1_c", "2_b", "2_a"]
      (by decide)).2 2⟩

/-- C3 counterexample: with listing `["2_b.py", "2_a.py"]` the catalog
returns `["2_b", "2_a"]` — the two names share ordinal `2` yet appear in
listing order, not in base-name string order (`"2_a" < "2_b"`). -/
theorem catalog_order_counterexample :
    retreiveFilenames ["2_b.py", "2_a.py"] = .ok ["2_b", "2_a"] ∧
    ordinalKey "2_b" = ordinalKey "2_a" ∧
    strLt "2_a" "2_b" :=
  ⟨by decide, by decide, by decide⟩

/-! ### Claim C1 -/

/-- C1: whenever a run reaches the window phase (non-empty sequence, not
one of the two "nothing to go" boundaries of step 5), the engine executes
exactly the slice `sequence[start:end]` of the reversed-for-down sequence,
with `start` `0`/`index+1`/`index` per the spec and
`end = len(sequence)` for `count == 0`, else `start + count` — as
formalised by `claimWindow`, written from the spec's words.  A count
exceeding the available units merely sets the informational notice
(`count > len(window)`); the run proceeds with the clamped window and an
error can arise only from executing the units themselves. -/
theorem window_correct (units : String → MUnit) (direction : Direction)
    (fake : Bool) (count : Int) (filenames : List String) (s : EngineState)
    (hne : (if direction = .down then filenames.reverse else filenames) ≠ [])
    (hdown : ¬(direction = .down ∧ latestMigration s.ledger = none))
    (hmem : ∀ m, latestMigration s.ledger = some m →
      m ∈ (if direction = .down then filenames.reverse else filenames))
    (hnb : ∀ m, latestMigration s.ledger = some m → direction = .up →
      (if direction = .down then filenames.reverse else filenames).indexOf? m ≠
        some ((if direction = .down then filenames.reverse
               else filenames).length - 1)) :
    performMigrations units direction fake count filenames s =
      (match runAll units direction fake
          (claimWindow filenames direction count (latestMigration s.ledger))
          s with
       | (s', none) =>
         (s', .finished true (decide (count >
            ((claimWindow filenames direction count
              (latestMigration s.ledger)).length : Int))))
       | (s', some e) => (s', .raised e)) := by
  cases direction with
  | up =>
    simp only [reduceCtorEq, if_false] at hne hmem hnb ⊢
    have hlen : filenames.length ≠ 0 := fun h => hne (List.length_eq_zero.mp h)
    rcases hl : latestMigration s.ledger with _ | m
    · simp only [performMigrations, reduceCtorEq, if_false, if_neg hlen, hl,
        claimWindow, claimStart, runWindow]
    · obtain ⟨i, hi⟩ := indexOf?_isSome_of_mem (hmem m hl)
      have hne2 := hnb m hl trivial
      have hii : ¬(i = filenames.length - 1) := by
        intro h
        rw [h] at hi
        exact hne2 hi
      have hidx : filenames.indexOf m = i := by
        simp [List.indexOf_eq_indexOf?, hi]
      simp only [performMigrations, reduceCtorEq, if_false, if_neg hlen, hl,
        hi, claimWindow, claimStart, runWindow, hidx, and_true, ite_true,
        if_neg hii]
  | down =>
    simp only [reduceIte] at hne hmem ⊢
    have hlen : filenames.reverse.length ≠ 0 := fun h =>
      hne (List.length_eq_zero.mp h)
    rcases hl : latestMigration s.ledger with _ | m
    · exact absurd ⟨rfl, hl⟩ hdown
    · obtain ⟨i, hi⟩ := indexOf?_isSome_of_mem (hmem m hl)
      have hidx : filenames.reverse.indexOf m = i := by
        simp [List.indexOf_eq_indexOf?, hi]
      simp only [performMigrations, reduceIte, reduceCtorEq, if_neg hlen, hl,
        hi, claimWindow, claimStart, runWindow, hidx, if_false,
        and_false, if_neg (not_false)]

/-- Witness for C1: latest `1_a` at index 0 of a two-element sequence,
`up` with count `5` — the window is the one remaining unit and the
count notice fires. -/
theorem window_correct_witness :
    performMigrations (fun _ => ⟨true, true⟩) .up false 5 ["1_a", "2_b"]
        { ledger := ["1_a"], executed := [], attempted := [] } =
      (match runAll (fun _ => ⟨true, true⟩) .up false
          (claimWindow ["1_a", "2_b"] .up 5 (latestMigration ["1_a"]))
          { ledger := ["1_a"], executed := [], attempted := [] } with
       | (s', none) =>
         (s', .finished true (decide ((5 : Int) >
            ((claimWindow ["1_a", "2_b"] .up 5
              (latestMigration ["1_a"])).length : Int))))
       | (s', some e) => (s', .raised e)) :=
  window_correct (fun _ => ⟨true, true⟩) .up false 5 ["1_a", "2_b"]
    { ledger := ["1_a"], executed := [], attempted := [] }
    (by decide)
    (by decide)
    (fun m h => by
      cases h
      decide)
    (fun m h _ => by
      cases h
      decide)

/-! ### Claim C2 -/

/-- With `count = 0` the window is everything from `start` on, and the
count notice can never fire. -/
theorem runWindow_count_zero (units : String → MUnit)
    (direction : Direction) (fake : Bool) (filenames : List String)
    (s : EngineState) (start : Int) (k : Nat) (hk : start = (k : Int)) :
    runWindow units direction fake 0 filenames start s =
      match runAll units direction fake (filenames.drop k) s with
      | (s', none) => (s', .finished true false)
      | (s', some e) => (s', .raised e) := by
  subst hk
  have hnot : ¬((0 : Int) > ((filenames.drop k).length : Int)) := by
    have : (0 : Int) ≤ ((filenames.drop k).length : Int) := Int.natCast_nonneg _
    omega
  simp only [runWindow, ite_true, pythonSlice_natCast, decide_eq_false hnot]

/-- A second `up` pass over a state whose remaining window is entirely in
the ledger completes with no executions and no ledger change. -/
theorem up_rerun_noop (units : String → MUnit) (fake : Bool)
    (filenames : List String) (t : EngineState) (m2 : String) (i2 : Nat)
    (hfe : ¬filenames.length = 0)
    (hl2 : latestMigration t.ledger = some m2)
    (hi2 : filenames.indexOf? m2 = some i2)
    (hwin : ∀ x ∈ filenames.drop (i2 + 1), x ∈ t.ledger) :
    ∃ s2 r2 n2,
      performMigrations units .up fake 0 filenames t =
        (s2, .finished r2 n2) ∧
      s2.ledger = t.ledger ∧ s2.executed = t.executed := by
  by_cases hb2 : i2 = filenames.length - 1
  · refine ⟨t, false, false, ?_, rfl, rfl⟩
    simp [performMigrations, hfe, hl2, hi2, hb2]
  · refine ⟨{ t with attempted := t.attempted ++ filenames.drop (i2 + 1) },
      true, false, ?_, rfl, rfl⟩
    have hskip := @runAll_up_all_skip units fake (filenames.drop (i2 + 1))
      t hwin
    have hcast : ((i2 : Int) + 1) = ((i2 + 1 : Nat) : Int) := by push_cast; ring
    simp only [performMigrations, reduceCtorEq, if_false, if_neg hfe, hl2,
      hi2, and_true, ite_true,
      if_neg hb2,
      runWindow_count_zero units .up fake filenames t _ (i2 + 1) hcast,
      hskip]

/-- C2 (amended): for a full run (`count = 0`, the CLI's "as many as
remain"), running `up` twice in a row over the same duplicate-free catalog
makes the second run perform zero unit executions and zero ledger
mutations — every unit of its window is already in the ledger and is
skipped — provided the first run finished without raising.  With a
positive `count` the property fails (see the counterexample): the second
run continues where the first stopped. -/
theorem up_idempotent (units : String → MUnit) (fake : Bool)
    (filenames : List String) (s s1 : EngineState) (r1 n1 : Bool)
    (hnd : filenames.Nodup)
    (h1 : performMigrations units .up fake 0 filenames s =
      (s1, .finished r1 n1)) :
    ∃ s2 r2 n2,
      performMigrations units .up fake 0 filenames s1 =
        (s2, .finished r2 n2) ∧
      s2.ledger = s1.ledger ∧ s2.executed = s1.executed := by
  by_cases hfe : filenames.length = 0
  · have hshape : performMigrations units .up fake 0 filenames s =
        (s, .finished true false) := by
      simp [performMigrations, hfe]
    rw [hshape, Prod.mk.injEq] at h1
    obtain ⟨rfl, -⟩ := h1
    exact ⟨s, true, false, by simp [performMigrations, hfe], rfl, rfl⟩
  · have hnil : filenames ≠ [] := fun h => hfe (by rw [h]; rfl)
    obtain ⟨f0, hf0⟩ := List.exists_mem_of_ne_nil filenames hnil
    rcases hl : latestMigration s.ledger with _ | m1
    · -- run 1 starts from scratch: its window is the whole sequence
      have hled : s.ledger = [] := latestMigration_none_iff.mp hl
      have hshape : performMigrations units .up fake 0 filenames s =
          match runAll units .up fake filenames s with
          | (s', none) => (s', .finished true false)
          | (s', some e) => (s', .raised e) := by
        rw [performMigrations]
        simp only [reduceCtorEq, if_false, if_neg hfe, hl,
          runWindow_count_zero units .up fake filenames s 0 0 (by norm_num),
          List.drop_zero]
      rcases hr : runAll units .up fake filenames s with ⟨t, e⟩
      rw [hshape, hr] at h1
      cases e with
      | some e' => simp at h1
      | none =>
        simp only [Prod.mk.injEq] at h1
        obtain ⟨rfl, -⟩ := h1
        have hgrow := runAll_up_ledger_grow hr
        have hsub := runAll_up_ledger_sub hr
        rcases hl2 : latestMigration t.ledger with _ | m2
        · exact absurd (hgrow f0 (Or.inr hf0))
            (by rw [latestMigration_none_iff.mp hl2]; exact List.not_mem_nil f0)
        · have hm2mem : m2 ∈ filenames := by
            rcases hsub m2 (latestMigration_mem hl2) with h | h
            · rw [hled] at h; exact absurd h (List.not_mem_nil m2)
            · exact h
          obtain ⟨i2, hi2⟩ := indexOf?_isSome_of_mem hm2mem
          exact up_rerun_noop units fake filenames t m2 i2 hfe hl2 hi2
            (fun x hx => hgrow x (Or.inr (List.drop_subset _ _ hx)))
    · -- run 1 resumes after the latest record
      have hm1mem := latestMigration_mem hl
      have hm1max := latestMigration_max hl
      rcases hidx : filenames.indexOf? m1 with _ | i1
      · rw [performMigrations] at h1
        simp only [reduceCtorEq, if_false, if_neg hfe, hl, hidx] at h1
        simp at h1
      · by_cases hb1 : i1 = filenames.length - 1
        · have hshape : performMigrations units .up fake 0 filenames s =
              (s, .finished false false) := by
            simp [performMigrations, hfe, hl, hidx, hb1]
          rw [hshape, Prod.mk.injEq] at h1
          obtain ⟨rfl, -⟩ := h1
          exact ⟨s, false, false, hshape, rfl, rfl⟩
        · have hcast : ((i1 : Int) + 1) = ((i1 + 1 : Nat) : Int) := by
            push_cast; ring
          have hshape : performMigrations units .up fake 0 filenames s =
              match runAll units .up fake (filenames.drop (i1 + 1)) s with
              | (s', none) => (s', .finished true false)
              | (s', some e) => (s', .raised e) := by
            rw [performMigrations]
            simp only [reduceCtorEq, if_false, if_neg hfe, hl, hidx,
              and_true, ite_true, if_neg hb1,
              runWindow_count_zero units .up fake filenames s _ (i1 + 1)
                hcast]
          rcases hr : runAll units .up fake (filenames.drop (i1 + 1)) s
            with ⟨t, e⟩
          rw [hshape, hr] at h1
          cases e with
          | some e' => simp at h1
          | none =>
            simp only [Prod.mk.injEq] at h1
            obtain ⟨rfl, -⟩ := h1
            have hgrow := runAll_up_ledger_grow hr
            have hsub := runAll_up_ledger_sub hr
            rcases hl2 : latestMigration t.ledger with _ | m2
            · exact absurd (hgrow m1 (Or.inl hm1mem))
                (by rw [latestMigration_none_iff.mp hl2]
                    exact List.not_mem_nil m1)
            · have hm2led := latestMigration_mem hl2
              have hcases := hsub m2 hm2led
              -- either the latest is unchanged, or it lies in run 1's window
              have hstep : ∃ i2, filenames.indexOf? m2 = some i2 ∧ i1 ≤ i2 := by
                rcases hcases with hold | hwin
                · have h12 : strLe m2 m1 := hm1max m2 hold
                  have h21 : strLe m1 m2 :=
                    latestMigration_max hl2 m1 (hgrow m1 (Or.inl hm1mem))
                  have : m2 = m1 := strLe_antisymm h12 h21
                  exact ⟨i1, by rw [this, hidx], le_refl i1⟩
                · obtain ⟨j, hj⟩ := indexOf?_isSome_of_mem
                    (List.drop_subset _ _ hwin)
                  exact ⟨j, hj,
                    Nat.le_of_succ_le (le_indexOf?_of_mem_drop hnd hwin hj)⟩
              obtain ⟨i2, hi2, h12⟩ := hstep
              refine up_rerun_noop units fake filenames t m2 i2 hfe hl2 hi2
                (fun x hx => ?_)
              have hx' : x ∈ filenames.drop (i1 + 1) := by
                have hdd : filenames.drop (i2 + 1) =
                    (filenames.drop (i1 + 1)).drop ((i2 + 1) - (i1 + 1)) := by
                  rw [List.drop_drop]
                  congr 1
                  omega
                rw [hdd] at hx
                exact List.drop_subset _ _ hx
              exact hgrow x (Or.inr hx')

/-- Witness for C2: after a full `up` run over `["1_a", "2_b"]`, the second
full run changes neither the ledger nor the execution log. -/
theorem up_idempotent_witness :
    ∃ s2 r2 n2,
      performMigrations (fun _ => ⟨true, true⟩) .up false 0 ["1_a", "2_b"]
          { ledger := ["1_a", "2_b"],
            executed := [("1_a", Direction.up), ("2_b", Direction.up)],
            attempted := ["1_a", "2_b"] } =
        (s2, .finished r2 n2) ∧
      s2.ledger = ["1_a", "2_b"] ∧
      s2.executed = [("1_a", Direction.up), ("2_b", Direction.up)] :=
  up_idempotent (fun _ => ⟨true, true⟩) false ["1_a", "2_b"]
    { ledger := [], executed := [], attempted := [] }
    { ledger := ["1_a", "2_b"],
      executed := [("1_a", Direction.up), ("2_b", Direction.up)],
      attempted := ["1_a", "2_b"] }
    true false (by decide) (by decide)

/-- C2 counterexample to the unqualified claim: with the CLI count `1`
(the same arguments both times), the second `up` run executes `2_b` and
inserts its ledger row — the claim's "zero executions, ledger unchanged"
does not hold for every run request, only for `count = 0`. -/
theorem up_idempotent_counterexample :
    performMigrations (fun _ => ⟨true, true⟩) .up false 1 ["1_a", "2_b"]
        { ledger := [], executed := [], attempted := [] } =
      ({ ledger := ["1_a"], executed := [("1_a", Direction.up)],
         attempted := ["1_a"] }, .finished true false) ∧
    performMigrations (fun _ => ⟨true, true⟩) .up false 1 ["1_a", "2_b"]
        { ledger := ["1_a"], executed := [("1_a", Direction.up)],
          attempted := ["1_a"] } =
      ({ ledger := ["1_a", "2_b"],
         executed := [("1_a", Direction.up), ("2_b", Direction.up)],
         attempted := ["1_a", "2_b"] }, .finished true false) ∧
    ([("1_a", Direction.up), ("2_b", Direction.up)] ≠
      [("1_a", Direction.up)]) :=
  ⟨by decide, by decide, by decide⟩

end Arnold
